import Mathlib

set_option autoImplicit false

/-!
Shallow embedding of the `linebender/styled_text` repository.

Two crates are embedded:
* `attributed_text` (namespace `attributed_text`): spans are fixed half-open
  `Range<usize>` values and the container supports `delete` with rebasing.
* `styled_text` (namespace `styled_text`): spans are generic
  `(Bound<usize>, Bound<usize>)` pairs; query-only.

The text storage trait is instantiated at its reference implementation
(`String`): the stored text is the character sequence, `len()` is its length,
and `replace_range(r, "")` removes the slice `[r.start, r.end)`.
-/

namespace StyledTextRepo

/-- `SpanEditAction` from `edit_behavior.rs`: whether a span is kept or
removed when the content it covers is edited. -/
inductive SpanEditAction where
  | Keep
  | Remove
  deriving DecidableEq, Repr

/-- `EditBehavior` trait from `edit_behavior.rs`: each attribute value decides,
via `on_edit`, whether its span is kept or removed under an edit. -/
class EditBehavior (Attr : Type) where
  on_edit : Attr → SpanEditAction

/-- `core::ops::Range<usize>`: a half-open index range `start..end`.
The Rust field `end` is a Lean keyword and is rendered `stop`. -/
structure Range where
  start : Nat
  stop : Nat
  deriving DecidableEq, Repr

/-- `Range::<usize>::contains(&index)`: `start <= index && index < end`. -/
def Range.contains (r : Range) (index : Nat) : Bool :=
  decide (r.start ≤ index) && decide (index < r.stop)

/-- The attribute type of the test suites of both crates: one `Keep` and one
`Remove` attribute. -/
inductive TestAttribute where
  | Keep
  | Remove
  deriving DecidableEq, Repr

instance : EditBehavior TestAttribute where
  on_edit := fun a =>
    match a with
    | TestAttribute.Keep => SpanEditAction.Keep
    | TestAttribute.Remove => SpanEditAction.Remove

namespace attributed_text

/-- `ApplyAttributeError` of the `attributed_text` crate. -/
inductive ApplyAttributeError where
  | InvalidBounds
  deriving DecidableEq, Repr

/-- `DeleteError` of the `attributed_text` crate. -/
inductive DeleteError where
  | InvalidRange
  deriving DecidableEq, Repr

/-- `AttributedText` of `attributed_text/src/attributed_text.rs`: a text
storage plus an insertion-ordered list of `(Range<usize>, Attr)` spans. -/
structure AttributedText (Attr : Type) where
  text : List Char
  attributes : List (Range × Attr)
  deriving DecidableEq, Repr

variable {Attr : Type}

/-- `AttributedText::new`. -/
def new (text : List Char) : AttributedText Attr :=
  { text := text, attributes := [] }

/-- `AttributedText::apply_attribute`. -/
def apply_attribute (self : AttributedText Attr) (range : Range) (attr : Attr) :
    Except ApplyAttributeError (AttributedText Attr) :=
  let text_len := self.text.length
  if range.start > text_len ∨ range.stop > text_len then
    Except.error ApplyAttributeError.InvalidBounds
  else
    Except.ok { self with attributes := self.attributes ++ [(range, attr)] }

/-- `AttributedText::attributes_at`: the attributes whose span contains
`index`, in insertion order. -/
def attributes_at (self : AttributedText Attr) (index : Nat) : List Attr :=
  self.attributes.filterMap fun (attr_span, attr) =>
    if attr_span.contains index then some attr else none

/-- `AttributedText::attributes_for_range`: the attributes whose span overlaps
`range` (strict open-interval overlap), in insertion order. -/
def attributes_for_range (self : AttributedText Attr) (range : Range) : List Attr :=
  self.attributes.filterMap fun (attr_span, attr) =>
    if attr_span.start < range.stop ∧ attr_span.stop > range.start then some attr else none

/-- The body of the `retain_mut` closure of `AttributedText::delete`: rebase
one stored span against `deletion_range`; `none` means the span is dropped. -/
def rebase_span [EditBehavior Attr] (deletion_range : Range) (deleted_len : Nat)
    (entry : Range × Attr) : Option (Range × Attr) :=
  let (span, attr) := entry
  if span.stop ≤ deletion_range.start then
    -- Completely before delete — no change
    some (span, attr)
  else if span.start ≥ deletion_range.stop then
    -- Completely after delete — shift left
    some (⟨span.start - deleted_len, span.stop - deleted_len⟩, attr)
  else
    match EditBehavior.on_edit attr with
    | SpanEditAction.Keep =>
      let span' : Range :=
        if span.start < deletion_range.start ∧ span.stop > deletion_range.stop then
          -- Span fully covers deletion -> shrink gap
          ⟨span.start, span.stop - deleted_len⟩
        else
          -- Span partially overlaps deletion
          ⟨min span.start deletion_range.start, min span.stop deletion_range.start⟩
      -- Only keep if non-empty
      if span'.start < span'.stop then some (span', attr) else none
    | SpanEditAction.Remove => none

/-- `AttributedText::delete`: validate the range, remove the text slice, and
rebase every stored span. -/
def delete [EditBehavior Attr] (self : AttributedText Attr) (deletion_range : Range) :
    Except DeleteError (AttributedText Attr) :=
  let text_len := self.text.length
  if deletion_range.start > deletion_range.stop ∨ deletion_range.stop > text_len then
    Except.error DeleteError.InvalidRange
  else
    let text := self.text.take deletion_range.start ++ self.text.drop deletion_range.stop
    let deleted_len := deletion_range.stop - deletion_range.start
    Except.ok
      { text := text
        attributes := self.attributes.filterMap (rebase_span deletion_range deleted_len) }

end attributed_text

namespace styled_text

/-- `ApplyAttributeError` of the `styled_text` crate. -/
inductive ApplyAttributeError where
  | InvalidBounds
  deriving DecidableEq, Repr

/-- `core::ops::Bound<usize>`. -/
inductive Bound where
  | Included : Nat → Bound
  | Excluded : Nat → Bound
  | Unbounded : Bound
  deriving DecidableEq, Repr

/-- `RangedAttribute` of `styled_text/src/attributed_text.rs`: an attribute
with the bound pair of the range it was applied to; the Rust fields `end` and
`attribute` are Lean keywords and are rendered `stop` and `attr`. -/
structure RangedAttribute (Attr : Type) where
  start : Bound
  stop : Bound
  attr : Attr
  deriving DecidableEq, Repr

/-- `AttributedText` of `styled_text/src/attributed_text.rs`. -/
structure AttributedText (Attr : Type) where
  text : List Char
  attributes : List (RangedAttribute Attr)
  deriving DecidableEq, Repr

variable {Attr : Type}

/-- `AttributedText::new`. -/
def new (text : List Char) : AttributedText Attr :=
  { text := text, attributes := [] }

/-- `AttributedText::apply_attribute` (bounds-generic variant): only the
resolved end of the range is validated. -/
def apply_attribute (self : AttributedText Attr) (startB stopB : Bound) (attr : Attr) :
    Except ApplyAttributeError (AttributedText Attr) :=
  let rend :=
    match stopB with
    | Bound.Included e => e + 1
    | Bound.Excluded e => e
    | Bound.Unbounded => self.text.length
  if rend > self.text.length then
    Except.error ApplyAttributeError.InvalidBounds
  else
    Except.ok
      { self with
        attributes := self.attributes ++ [⟨startB, stopB, attr⟩] }

/-- `RangeBounds::<usize>::contains(&index)` for the pair
`(ra.start, ra.end)`: bound-by-bound comparison, no resolution against the
container length. -/
def bounds_contain (startB stopB : Bound) (index : Nat) : Bool :=
  (match startB with
   | Bound.Included s => decide (s ≤ index)
   | Bound.Excluded s => decide (s < index)
   | Bound.Unbounded => true) &&
  (match stopB with
   | Bound.Included e => decide (index ≤ e)
   | Bound.Excluded e => decide (index < e)
   | Bound.Unbounded => true)

/-- `AttributedText::attributes_at` (bounds-generic variant). -/
def attributes_at (self : AttributedText Attr) (index : Nat) : List Attr :=
  self.attributes.filterMap fun ra =>
    if bounds_contain ra.start ra.stop index then some ra.attr else none

/-- The local `bounds_to_indices` helper of `attributes_for_range`: resolve a
bound pair to concrete half-open `[start, end)` indices against the container
length. -/
def bounds_to_indices (start_bound stop_bound : Bound) (container_length : Nat) :
    Nat × Nat :=
  let start :=
    match start_bound with
    | Bound.Included s => s
    | Bound.Excluded s => s + 1
    | Bound.Unbounded => 0
  let stop :=
    match stop_bound with
    | Bound.Included e => e + 1
    | Bound.Excluded e => e
    | Bound.Unbounded => container_length
  (start, stop)

/-- `AttributedText::attributes_for_range` (bounds-generic variant): resolve
the query and every stored bound pair against the current text length, then
test strict open-interval overlap. -/
def attributes_for_range (self : AttributedText Attr) (startB stopB : Bound) : List Attr :=
  let q := bounds_to_indices startB stopB self.text.length
  self.attributes.filterMap fun ra =>
    let a := bounds_to_indices ra.start ra.stop self.text.length
    if a.1 < q.2 ∧ a.2 > q.1 then some ra.attr else none

end styled_text

namespace attributed_text

/-- The per-span deletion rebasing rule exactly as the specification words it
(claim side, to be compared with `rebase_span` from the source): a span ending
at or before the cut is unchanged; a span starting at or after the cut is
shifted left by the deleted length; an overlapping span is dropped under the
`Remove` policy, and under `Keep` is shrunk at its end when it strictly
contains the deletion, otherwise clamped to the deletion start and kept only
when the result is non-empty. -/
def rebase_span_spec {Attr : Type} [EditBehavior Attr] (deletion_range : Range)
    (entry : Range × Attr) : Option (Range × Attr) :=
  let deleted_len := deletion_range.stop - deletion_range.start
  let (span, a) := entry
  if span.stop ≤ deletion_range.start then
    some (span, a)
  else if span.start ≥ deletion_range.stop then
    some (⟨span.start - deleted_len, span.stop - deleted_len⟩, a)
  else
    match EditBehavior.on_edit a with
    | SpanEditAction.Remove => none
    | SpanEditAction.Keep =>
      if span.start < deletion_range.start ∧ span.stop > deletion_range.stop then
        some (⟨span.start, span.stop - deleted_len⟩, a)
      else
        if min span.start deletion_range.start < min span.stop deletion_range.start then
          some (⟨min span.start deletion_range.start, min span.stop deletion_range.start⟩, a)
        else none

/-- States reachable from `new` by successful `apply_attribute` and `delete`
calls in which every applied range is non-inverted (`start <= end`). -/
inductive ReachableWF {Attr : Type} [EditBehavior Attr] :
    AttributedText Attr → Prop where
  | base (text : List Char) : ReachableWF (new text)
  | applied (self self' : AttributedText Attr) (range : Range) (a : Attr) :
      ReachableWF self → range.start ≤ range.stop →
      apply_attribute self range a = Except.ok self' → ReachableWF self'
  | deleted (self self' : AttributedText Attr) (deletion_range : Range) :
      ReachableWF self → delete self deletion_range = Except.ok self' →
      ReachableWF self'

end attributed_text

/-! Helper lemmas about `List.filterMap`. -/

/-- Congruence for `List.filterMap` under pointwise equal functions. -/
theorem filterMap_congr_mem {α β : Type} (f g : α → Option β) :
    ∀ l : List α, (∀ x ∈ l, f x = g x) → l.filterMap f = l.filterMap g
  | [], _ => rfl
  | x :: xs, h => by
    rw [List.filterMap_cons, List.filterMap_cons, h x (by simp),
      filterMap_congr_mem f g xs fun y hy => h y (by simp [hy])]

/-- A `filterMap` that keeps or drops whole elements is a `filter`. -/
theorem filterMap_eq_filter_of {α : Type} (f : α → Option α) (g : α → Bool) :
    ∀ l : List α, (∀ x ∈ l, f x = if g x then some x else none) → l.filterMap f = l.filter g
  | [], _ => rfl
  | x :: xs, h => by
    rw [List.filterMap_cons, List.filter_cons, h x (by simp),
      filterMap_eq_filter_of f g xs fun y hy => h y (by simp [hy])]
    by_cases hx : g x <;> simp [hx]

/-! Characterizations of the query operations, proved by induction on the
stored attribute list. -/

/-- `attributes_at` (fixed variant) keeps exactly the entries whose half-open
span contains the index. -/
theorem attributes_at_fixed_chr {Attr : Type} (l : List (Range × Attr)) (index : Nat) :
    (l.filterMap fun (attr_span, attr) => if attr_span.contains index then some attr else none) =
      (l.filter fun e => decide (e.1.start ≤ index ∧ index < e.1.stop)).map Prod.snd := by
  induction l with
  | nil => rfl
  | cons x xs ih =>
    obtain ⟨r, a⟩ := x
    by_cases hc : r.start ≤ index ∧ index < r.stop
    · have hb : r.contains index = true := by simp [Range.contains]; exact hc
      simp [List.filterMap_cons, List.filter_cons, hb, hc, ih]
    · have hb : ¬ r.contains index = true := by simp [Range.contains]; omega
      simp [List.filterMap_cons, List.filter_cons, hb, hc, ih]

/-- `attributes_for_range` (fixed variant) keeps exactly the entries whose
span passes the strict overlap test. -/
theorem attributes_for_range_fixed_chr {Attr : Type} (l : List (Range × Attr)) (range : Range) :
    (l.filterMap fun (attr_span, attr) =>
        if attr_span.start < range.stop ∧ attr_span.stop > range.start then some attr else none) =
      (l.filter fun e => decide (e.1.start < range.stop ∧ e.1.stop > range.start)).map Prod.snd := by
  induction l with
  | nil => rfl
  | cons x xs ih =>
    obtain ⟨r, a⟩ := x
    by_cases hc : r.start < range.stop ∧ r.stop > range.start <;>
      simp [List.filterMap_cons, List.filter_cons, hc, ih]

/-- `attributes_at` (bounds-generic variant): for an index inside the text,
the raw bound test agrees with the resolved half-open interval test. -/
theorem attributes_at_generic_chr {Attr : Type} (l : List (styled_text.RangedAttribute Attr))
    (index L : Nat) (h : index < L) :
    (l.filterMap fun ra =>
        if styled_text.bounds_contain ra.start ra.stop index then some ra.attr else none) =
      (l.filter fun ra =>
        decide ((styled_text.bounds_to_indices ra.start ra.stop L).1 ≤ index ∧
          index < (styled_text.bounds_to_indices ra.start ra.stop L).2)).map
        (fun ra => ra.attr) := by
  induction l with
  | nil => rfl
  | cons x xs ih =>
    have hx : styled_text.bounds_contain x.start x.stop index = true ↔
        ((styled_text.bounds_to_indices x.start x.stop L).1 ≤ index ∧
          index < (styled_text.bounds_to_indices x.start x.stop L).2) := by
      cases x.start <;> cases x.stop <;>
        simp [styled_text.bounds_contain, styled_text.bounds_to_indices] <;> omega
    by_cases hc : (styled_text.bounds_to_indices x.start x.stop L).1 ≤ index ∧
        index < (styled_text.bounds_to_indices x.start x.stop L).2
    · have hb : styled_text.bounds_contain x.start x.stop index = true := hx.mpr hc
      simp [List.filterMap_cons, List.filter_cons, hb, hc, ih]
    · have hb : ¬ styled_text.bounds_contain x.start x.stop index = true := fun hb => hc (hx.mp hb)
      simp [List.filterMap_cons, List.filter_cons, hb, hc, ih]

/-- `attributes_for_range` (bounds-generic variant) keeps exactly the entries
whose resolved span passes the strict overlap test against the resolved
query. -/
theorem attributes_for_range_generic_chr {Attr : Type}
    (l : List (styled_text.RangedAttribute Attr)) (qs qe L : Nat) :
    (l.filterMap fun ra =>
        if (styled_text.bounds_to_indices ra.start ra.stop L).1 < qe ∧
            (styled_text.bounds_to_indices ra.start ra.stop L).2 > qs then
          some ra.attr
        else none) =
      (l.filter fun ra =>
        decide ((styled_text.bounds_to_indices ra.start ra.stop L).1 < qe ∧
          (styled_text.bounds_to_indices ra.start ra.stop L).2 > qs)).map
        (fun ra => ra.attr) := by
  induction l with
  | nil => rfl
  | cons x xs ih =>
    by_cases hc : (styled_text.bounds_to_indices x.start x.stop L).1 < qe ∧
        (styled_text.bounds_to_indices x.start x.stop L).2 > qs <;>
      simp [List.filterMap_cons, List.filter_cons, hc, ih]

/-- Pointwise agreement of the source rebasing step with the rebasing rule as
the specification words it, for a non-inverted deletion range. -/
theorem rebase_span_eq_spec {Attr : Type} [EditBehavior Attr] {deletion_range : Range}
    (h1 : deletion_range.start ≤ deletion_range.stop) (entry : Range × Attr) :
    attributed_text.rebase_span deletion_range (deletion_range.stop - deletion_range.start)
        entry =
      attributed_text.rebase_span_spec deletion_range entry := by
  obtain ⟨span, a⟩ := entry
  by_cases hb : span.stop ≤ deletion_range.start
  · simp [attributed_text.rebase_span, attributed_text.rebase_span_spec, hb]
  · by_cases ha : span.start ≥ deletion_range.stop
    · simp [attributed_text.rebase_span, attributed_text.rebase_span_spec, hb, ha]
    · cases hoe : EditBehavior.on_edit a with
      | Remove =>
        simp [attributed_text.rebase_span, attributed_text.rebase_span_spec, hb, ha, hoe]
      | Keep =>
        by_cases hc : span.start < deletion_range.start ∧ span.stop > deletion_range.stop
        · have hpos : span.start < span.stop - (deletion_range.stop - deletion_range.start) := by
            omega
          simp [attributed_text.rebase_span, attributed_text.rebase_span_spec, hb, ha, hoe, hc,
            hpos]
        · simp [attributed_text.rebase_span, attributed_text.rebase_span_spec, hb, ha, hoe, hc]

/-- C1: for a container whose stored spans are all non-inverted
(`start <= end`, so every `usize` subtraction of the rebase is exact and the
`Nat` model coincides with the program; at an inverted stored span the Rust
`span.end -= deleted_len` can overflow instead) and a valid deletion range
(`start <= end <= text.len()`), `delete` succeeds and rebases every stored
span exactly as the specification states: spans ending at or before the cut
are unchanged, spans starting at or after the cut shift left by the deleted
length, and overlapping spans are dropped under `Remove`, shrunk when
strictly containing the deletion under `Keep`, and otherwise clamped to the
deletion start and kept only when non-empty. -/
theorem C1_delete_rebases_as_specified {Attr : Type} [EditBehavior Attr]
    (self : attributed_text.AttributedText Attr) (deletion_range : Range)
    (_hwf : ∀ e ∈ self.attributes, e.1.start ≤ e.1.stop)
    (h1 : deletion_range.start ≤ deletion_range.stop)
    (h2 : deletion_range.stop ≤ self.text.length) :
    attributed_text.delete self deletion_range =
      Except.ok
        { text := self.text.take deletion_range.start ++ self.text.drop deletion_range.stop
          attributes :=
            self.attributes.filterMap (attributed_text.rebase_span_spec deletion_range) } := by
  simp only [attributed_text.delete]
  rw [if_neg (by omega)]
  rw [filterMap_congr_mem _ _ self.attributes fun e _ => rebase_span_eq_spec h1 e]

/-- Witness for C1 at the concrete input of the `test_delete_basic` test. -/
theorem C1_delete_rebases_as_specified_witness :
    attributed_text.delete
        (⟨"Hello World".toList, [(⟨0, 11⟩, TestAttribute.Keep)]⟩ :
          attributed_text.AttributedText TestAttribute) ⟨5, 11⟩ =
      Except.ok
        { text := "Hello World".toList.take 5 ++ "Hello World".toList.drop 11
          attributes :=
            [(⟨0, 11⟩, TestAttribute.Keep)].filterMap
              (attributed_text.rebase_span_spec ⟨5, 11⟩) } :=
  C1_delete_rebases_as_specified ⟨"Hello World".toList, [(⟨0, 11⟩, TestAttribute.Keep)]⟩
    ⟨5, 11⟩ (by decide) (by decide) (by decide)

/-- C2: in both variants, `attributes_for_range` returns, in insertion order,
exactly the attributes whose resolved span `[a_start, a_end)` satisfies
`a_start < q_end` and `a_end > q_start`; abutting spans are excluded. -/
theorem C2_attributes_for_range_exact_overlap {Attr : Type}
    (self : attributed_text.AttributedText Attr) (range : Range)
    (gself : styled_text.AttributedText Attr) (startB stopB : styled_text.Bound) :
    attributed_text.attributes_for_range self range =
      (self.attributes.filter fun e =>
        decide (e.1.start < range.stop ∧ e.1.stop > range.start)).map Prod.snd
    ∧ styled_text.attributes_for_range gself startB stopB =
      (gself.attributes.filter fun ra =>
        decide ((styled_text.bounds_to_indices ra.start ra.stop gself.text.length).1 <
            (styled_text.bounds_to_indices startB stopB gself.text.length).2 ∧
          (styled_text.bounds_to_indices ra.start ra.stop gself.text.length).2 >
            (styled_text.bounds_to_indices startB stopB gself.text.length).1)).map
        (fun ra => ra.attr) :=
  ⟨attributes_for_range_fixed_chr self.attributes range,
   attributes_for_range_generic_chr gself.attributes
     (styled_text.bounds_to_indices startB stopB gself.text.length).1
     (styled_text.bounds_to_indices startB stopB gself.text.length).2 gself.text.length⟩

/-- C3 counterexample: a zero-length query range can match. On text `"Hello"`
with one attribute on span `0..5`, the zero-length query `2..2` returns that
attribute, because `0 < 2` and `5 > 2` both hold. -/
theorem C3_counterexample :
    attributed_text.attributes_for_range
        (⟨"Hello".toList, [(⟨0, 5⟩, TestAttribute.Keep)]⟩ :
          attributed_text.AttributedText TestAttribute) ⟨2, 2⟩ = [TestAttribute.Keep] := by
  decide

/-- C3 amended: a zero-length query at position `p` returns, in insertion
order, exactly the attributes whose resolved span strictly contains `p`
(`a_start < p` and `a_end > p`); it is not always empty. -/
theorem C3_amended_zero_length_query {Attr : Type}
    (self : attributed_text.AttributedText Attr) (p : Nat)
    (gself : styled_text.AttributedText Attr) :
    attributed_text.attributes_for_range self ⟨p, p⟩ =
      (self.attributes.filter fun e => decide (e.1.start < p ∧ e.1.stop > p)).map Prod.snd
    ∧ styled_text.attributes_for_range gself (styled_text.Bound.Included p)
        (styled_text.Bound.Excluded p) =
      (gself.attributes.filter fun ra =>
        decide ((styled_text.bounds_to_indices ra.start ra.stop gself.text.length).1 < p ∧
          (styled_text.bounds_to_indices ra.start ra.stop gself.text.length).2 > p)).map
        (fun ra => ra.attr) :=
  ⟨attributes_for_range_fixed_chr self.attributes ⟨p, p⟩,
   attributes_for_range_generic_chr gself.attributes p p gself.text.length⟩

/-- C4 counterexample: in the bounds-generic variant, `attributes_at` does
not resolve an unbounded end against `text.len()`. On text `"Hello!"` (length
6) with one attribute applied to `0..` (unbounded end), `attributes_at 6`
returns the attribute, while the resolved half-open interval `[0, 6)` does
not contain index 6. -/
theorem C4_counterexample :
    styled_text.attributes_at
        (⟨"Hello!".toList,
          [⟨styled_text.Bound.Included 0, styled_text.Bound.Unbounded, TestAttribute.Keep⟩]⟩ :
          styled_text.AttributedText TestAttribute) 6 ≠
      (([⟨styled_text.Bound.Included 0, styled_text.Bound.Unbounded, TestAttribute.Keep⟩] :
          List (styled_text.RangedAttribute TestAttribute)).filter fun ra =>
        decide ((styled_text.bounds_to_indices ra.start ra.stop 6).1 ≤ 6 ∧
          6 < (styled_text.bounds_to_indices ra.start ra.stop 6).2)).map
        (fun ra => ra.attr) := by
  decide

/-- C4 amended: the fixed variant returns exactly the attributes whose span
`[start, end)` contains the index; the bounds-generic variant tests the raw
bound pair without resolving against `text.len()` (an unbounded end matches
every index), and for every index strictly below `text.len()` it agrees with
the resolved half-open interval characterization stated by the claim. -/
theorem C4_amended_attributes_at {Attr : Type}
    (self : attributed_text.AttributedText Attr) (index : Nat)
    (gself : styled_text.AttributedText Attr) (gindex : Nat)
    (hg : gindex < gself.text.length) :
    attributed_text.attributes_at self index =
      (self.attributes.filter fun e => decide (e.1.start ≤ index ∧ index < e.1.stop)).map
        Prod.snd
    ∧ styled_text.attributes_at gself gindex =
      (gself.attributes.filter fun ra =>
        decide ((styled_text.bounds_to_indices ra.start ra.stop gself.text.length).1 ≤ gindex ∧
          gindex < (styled_text.bounds_to_indices ra.start ra.stop gself.text.length).2)).map
        (fun ra => ra.attr) :=
  ⟨attributes_at_fixed_chr self.attributes index,
   attributes_at_generic_chr gself.attributes gindex gself.text.length hg⟩

/-- Witness for C4 amended: a container in each variant and an in-range
index. -/
theorem C4_amended_attributes_at_witness :
    attributed_text.attributes_at
        (⟨"Hello".toList, [(⟨0, 3⟩, TestAttribute.Keep)]⟩ :
          attributed_text.AttributedText TestAttribute) 2 =
      (([(⟨0, 3⟩, TestAttribute.Keep)] : List (Range × TestAttribute)).filter fun e =>
        decide (e.1.start ≤ 2 ∧ 2 < e.1.stop)).map Prod.snd
    ∧ styled_text.attributes_at
        (⟨"Hello!".toList,
          [⟨styled_text.Bound.Included 0, styled_text.Bound.Unbounded, TestAttribute.Keep⟩]⟩ :
          styled_text.AttributedText TestAttribute) 5 =
      (([⟨styled_text.Bound.Included 0, styled_text.Bound.Unbounded, TestAttribute.Keep⟩] :
          List (styled_text.RangedAttribute TestAttribute)).filter fun ra =>
        decide ((styled_text.bounds_to_indices ra.start ra.stop "Hello!".toList.length).1 ≤ 5 ∧
          5 < (styled_text.bounds_to_indices ra.start ra.stop "Hello!".toList.length).2)).map
        (fun ra => ra.attr) :=
  C4_amended_attributes_at ⟨"Hello".toList, [(⟨0, 3⟩, TestAttribute.Keep)]⟩ 2
    ⟨"Hello!".toList,
      [⟨styled_text.Bound.Included 0, styled_text.Bound.Unbounded, TestAttribute.Keep⟩]⟩ 5
    (by decide)

/-- C5: `delete` fails with `InvalidRange` exactly when the deletion range is
inverted (`start > end`) or reaches beyond the text (`end > text.len()`); in
the error case no new container state is produced, so neither the text nor
the attribute list changes. -/
theorem C5_delete_invalid_range {Attr : Type} [EditBehavior Attr]
    (self : attributed_text.AttributedText Attr) (deletion_range : Range) :
    attributed_text.delete self deletion_range =
        Except.error attributed_text.DeleteError.InvalidRange ↔
      (deletion_range.start > deletion_range.stop ∨
        deletion_range.stop > self.text.length) := by
  simp only [attributed_text.delete]
  by_cases h : deletion_range.start > deletion_range.stop ∨
      deletion_range.stop > self.text.length
  · rw [if_pos h]
    exact iff_of_true rfl h
  · rw [if_neg h]
    exact iff_of_false (by simp) h

/-- C6: in both variants, `apply_attribute` succeeds and appends the span to
the end of the attribute list exactly when the bounds are valid: in the fixed
variant both `start <= text.len()` and `end <= text.len()`, in the
bounds-generic variant the resolved end is at most `text.len()`; otherwise it
returns `InvalidBounds` and produces no new state, leaving the attribute list
unchanged. -/
theorem C6_apply_attribute_bounds {Attr : Type}
    (self : attributed_text.AttributedText Attr) (range : Range) (a : Attr)
    (gself : styled_text.AttributedText Attr) (startB stopB : styled_text.Bound) (b : Attr) :
    attributed_text.apply_attribute self range a =
      (if range.start ≤ self.text.length ∧ range.stop ≤ self.text.length then
        Except.ok { self with attributes := self.attributes ++ [(range, a)] }
      else Except.error attributed_text.ApplyAttributeError.InvalidBounds)
    ∧ styled_text.apply_attribute gself startB stopB b =
      (if (styled_text.bounds_to_indices startB stopB gself.text.length).2 ≤
          gself.text.length then
        Except.ok { gself with attributes := gself.attributes ++ [⟨startB, stopB, b⟩] }
      else Except.error styled_text.ApplyAttributeError.InvalidBounds) := by
  constructor
  · simp only [attributed_text.apply_attribute]
    by_cases h : range.start ≤ self.text.length ∧ range.stop ≤ self.text.length
    · rw [if_neg (by omega), if_pos h]
    · rw [if_pos (by omega), if_neg h]
  · cases stopB with
    | Included e =>
      simp only [styled_text.apply_attribute, styled_text.bounds_to_indices]
      by_cases h : e + 1 ≤ gself.text.length
      · rw [if_neg (by omega), if_pos h]
      · rw [if_pos (by omega), if_neg h]
    | Excluded e =>
      simp only [styled_text.apply_attribute, styled_text.bounds_to_indices]
      by_cases h : e ≤ gself.text.length
      · rw [if_neg (by omega), if_pos h]
      · rw [if_pos (by omega), if_neg h]
    | Unbounded =>
      simp only [styled_text.apply_attribute, styled_text.bounds_to_indices]
      rw [if_neg (by omega), if_pos (by omega)]

/-- C7 counterexample: a zero-length span is not always dropped after
rebasing. On text `"Hello World"` with one `Keep` attribute on the
zero-length span `5..5`, deleting `0..2` shifts the span to `3..3` and keeps
it, even though its length is zero. -/
theorem C7_counterexample :
    attributed_text.delete
        (⟨"Hello World".toList, [(⟨5, 5⟩, TestAttribute.Keep)]⟩ :
          attributed_text.AttributedText TestAttribute) ⟨0, 2⟩ =
      Except.ok ⟨"llo World".toList, [(⟨3, 3⟩, TestAttribute.Keep)]⟩ := by
  rfl

/-- C7 amended: with the deleted length that `delete` computes
(`deletion_range.end - deletion_range.start`), the strict-positivity
retention check applies only in the overlapping branch of the rebase (where
the edit policy is consulted): there a span is retained only if its
recomputed length is strictly positive. A span ending at or before the cut
is kept unchanged even when its length is zero, and a non-inverted span
(`start <= end`, so both `usize` subtractions are exact; at an inverted span
the Rust `span.end -= deleted_len` can overflow instead) starting at or
after the cut is shifted left and retained even when its length is zero. -/
theorem C7_amended_positivity_only_in_overlap {Attr : Type} [EditBehavior Attr]
    (deletion_range : Range) (span : Range) (a : Attr) :
    (span.stop ≤ deletion_range.start →
      attributed_text.rebase_span deletion_range
        (deletion_range.stop - deletion_range.start) (span, a) = some (span, a))
    ∧ (¬ span.stop ≤ deletion_range.start → ¬ span.start ≥ deletion_range.stop →
      ((attributed_text.rebase_span deletion_range
          (deletion_range.stop - deletion_range.start) (span, a)).all fun e =>
        decide (e.1.start < e.1.stop)) = true)
    ∧ (span.start ≤ span.stop → ¬ span.stop ≤ deletion_range.start →
      span.start ≥ deletion_range.stop →
      attributed_text.rebase_span deletion_range
          (deletion_range.stop - deletion_range.start) (span, a) =
        some (⟨span.start - (deletion_range.stop - deletion_range.start),
          span.stop - (deletion_range.stop - deletion_range.start)⟩, a)) := by
  refine ⟨?_, ?_, ?_⟩
  · intro hb
    simp only [attributed_text.rebase_span]
    rw [if_pos hb]
  · intro hb ha
    simp only [attributed_text.rebase_span]
    rw [if_neg hb, if_neg ha]
    cases hoe : EditBehavior.on_edit a with
    | Keep =>
      by_cases hc : span.start < deletion_range.start ∧ span.stop > deletion_range.stop
      · by_cases hpos : span.start <
            span.stop - (deletion_range.stop - deletion_range.start)
        · simp [hc, hpos, Option.all]
        · simp [hc, hpos, Option.all]
      · by_cases hpos : min span.start deletion_range.start <
            min span.stop deletion_range.start
        · simp [hc, hpos, Option.all]
        · simp [hc, hpos, Option.all]
    | Remove => rfl
  · intro _hwf hb ha
    simp only [attributed_text.rebase_span]
    rw [if_neg hb, if_pos ha]

/-- Witness for C7 amended: a zero-length span before the cut that is kept
unchanged, an overlapping `Keep` span whose survivor is non-empty, and a
zero-length non-inverted span after the cut that is shifted and retained. -/
theorem C7_amended_positivity_only_in_overlap_witness :
    attributed_text.rebase_span ⟨4, 6⟩ 2
        ((⟨3, 3⟩, TestAttribute.Keep) : Range × TestAttribute) =
      some (⟨3, 3⟩, TestAttribute.Keep)
    ∧ ((attributed_text.rebase_span ⟨2, 6⟩ 4
        ((⟨0, 4⟩, TestAttribute.Keep) : Range × TestAttribute)).all fun e =>
      decide (e.1.start < e.1.stop)) = true
    ∧ attributed_text.rebase_span ⟨0, 2⟩ 2
        ((⟨5, 5⟩, TestAttribute.Keep) : Range × TestAttribute) =
      some (⟨3, 3⟩, TestAttribute.Keep) :=
  ⟨(C7_amended_positivity_only_in_overlap ⟨4, 6⟩ ⟨3, 3⟩ TestAttribute.Keep).1 (by decide),
   (C7_amended_positivity_only_in_overlap ⟨2, 6⟩ ⟨0, 4⟩ TestAttribute.Keep).2.1
     (by decide) (by decide),
   (C7_amended_positivity_only_in_overlap ⟨0, 2⟩ ⟨5, 5⟩ TestAttribute.Keep).2.2
     (by decide) (by decide) (by decide)⟩

/-- C8 counterexample: an inverted span that passes the bounds check is
stored as given, but it IS returned by a range query: on text
`"Hello World"`, the stored span `5..2` is returned by
`attributes_for_range 0..10`, since `5 < 10` and `2 > 0`. -/
theorem C8_counterexample :
    attributed_text.apply_attribute
        (attributed_text.new "Hello World".toList :
          attributed_text.AttributedText TestAttribute) ⟨5, 2⟩ TestAttribute.Keep =
      Except.ok ⟨"Hello World".toList, [(⟨5, 2⟩, TestAttribute.Keep)]⟩
    ∧ attributed_text.attributes_for_range
        (⟨"Hello World".toList, [(⟨5, 2⟩, TestAttribute.Keep)]⟩ :
          attributed_text.AttributedText TestAttribute) ⟨0, 10⟩ =
      [TestAttribute.Keep] :=
  ⟨rfl, by decide⟩

/-- C8 amended: an inverted range that passes the bounds check is stored as
given and is never returned by `attributes_at` for any index, but
`attributes_for_range` returns it exactly when `span.start < q_end` and
`span.end > q_start`, which a query range can satisfy. -/
theorem C8_amended_inverted_span_queries {Attr : Type} (text : List Char) (range : Range)
    (a : Attr) (index : Nat) (q : Range) (hinv : range.stop < range.start)
    (hs : range.start ≤ text.length) :
    attributed_text.apply_attribute (attributed_text.new text) range a =
      Except.ok ⟨text, [(range, a)]⟩
    ∧ attributed_text.attributes_at
        (⟨text, [(range, a)]⟩ : attributed_text.AttributedText Attr) index = []
    ∧ attributed_text.attributes_for_range
        (⟨text, [(range, a)]⟩ : attributed_text.AttributedText Attr) q =
      (if range.start < q.stop ∧ range.stop > q.start then [a] else []) := by
  refine ⟨?_, ?_, ?_⟩
  · simp only [attributed_text.apply_attribute, attributed_text.new]
    rw [if_neg (by omega)]
    simp
  · have hfalse : range.contains index = false := by
      simp only [Range.contains]
      simp only [Bool.and_eq_false_iff, decide_eq_false_iff_not]
      omega
    simp [attributed_text.attributes_at, hfalse]
  · simp only [attributed_text.attributes_for_range]
    by_cases hq : range.start < q.stop ∧ range.stop > q.start <;> simp [hq]

/-- Witness for C8 amended at text `"Hello World"`, span `5..2`, index 3 and
query `0..10`. -/
theorem C8_amended_inverted_span_queries_witness :
    attributed_text.apply_attribute
        (attributed_text.new "Hello World".toList :
          attributed_text.AttributedText TestAttribute) ⟨5, 2⟩ TestAttribute.Keep =
      Except.ok ⟨"Hello World".toList, [(⟨5, 2⟩, TestAttribute.Keep)]⟩
    ∧ attributed_text.attributes_at
        (⟨"Hello World".toList, [(⟨5, 2⟩, TestAttribute.Keep)]⟩ :
          attributed_text.AttributedText TestAttribute) 3 = []
    ∧ attributed_text.attributes_for_range
        (⟨"Hello World".toList, [(⟨5, 2⟩, TestAttribute.Keep)]⟩ :
          attributed_text.AttributedText TestAttribute) ⟨0, 10⟩ =
      (if (5 : Nat) < 10 ∧ (2 : Nat) > 0 then [TestAttribute.Keep] else []) :=
  C8_amended_inverted_span_queries "Hello World".toList ⟨5, 2⟩ TestAttribute.Keep 3 ⟨0, 10⟩
    (by decide) (by decide)

/-- Inversion of a successful `apply_attribute` (fixed variant). -/
theorem apply_attribute_ok_inv {Attr : Type}
    {self self' : attributed_text.AttributedText Attr} {range : Range} {a : Attr}
    (h : attributed_text.apply_attribute self range a = Except.ok self') :
    range.start ≤ self.text.length ∧ range.stop ≤ self.text.length ∧
      self' = { self with attributes := self.attributes ++ [(range, a)] } := by
  simp only [attributed_text.apply_attribute] at h
  by_cases hc : range.start > self.text.length ∨ range.stop > self.text.length
  · rw [if_pos hc] at h
    exact Except.noConfusion h
  · rw [if_neg hc] at h
    injection h with h
    exact ⟨by omega, by omega, h.symm⟩

/-- Inversion of a successful `delete`. -/
theorem delete_ok_inv {Attr : Type} [EditBehavior Attr]
    {self self' : attributed_text.AttributedText Attr} {deletion_range : Range}
    (h : attributed_text.delete self deletion_range = Except.ok self') :
    deletion_range.start ≤ deletion_range.stop ∧
      deletion_range.stop ≤ self.text.length ∧
      self'.text = self.text.take deletion_range.start ++
        self.text.drop deletion_range.stop ∧
      self'.attributes = self.attributes.filterMap
        (attributed_text.rebase_span deletion_range
          (deletion_range.stop - deletion_range.start)) := by
  simp only [attributed_text.delete] at h
  by_cases hc : deletion_range.start > deletion_range.stop ∨
      deletion_range.stop > self.text.length
  · rw [if_pos hc] at h
    exact Except.noConfusion h
  · rw [if_neg hc] at h
    injection h with h
    subst h
    exact ⟨by omega, by omega, rfl, rfl⟩

/-- A span surviving the rebase of a valid deletion keeps the well-formedness
bounds with respect to the post-deletion text length. -/
theorem rebase_span_wf {Attr : Type} [EditBehavior Attr] {deletion_range : Range} {L : Nat}
    (hd1 : deletion_range.start ≤ deletion_range.stop) (hd2 : deletion_range.stop ≤ L)
    {span : Range} {a : Attr} (hs : span.start ≤ span.stop) (hL : span.stop ≤ L)
    {e : Range × Attr}
    (h : attributed_text.rebase_span deletion_range
        (deletion_range.stop - deletion_range.start) (span, a) = some e) :
    e.1.start ≤ e.1.stop ∧
      e.1.stop ≤ L - (deletion_range.stop - deletion_range.start) := by
  simp only [attributed_text.rebase_span] at h
  by_cases hb : span.stop ≤ deletion_range.start
  · rw [if_pos hb] at h
    injection h with h
    subst h
    constructor
    · show span.start ≤ span.stop
      omega
    · show span.stop ≤ L - (deletion_range.stop - deletion_range.start)
      omega
  · rw [if_neg hb] at h
    by_cases ha : span.start ≥ deletion_range.stop
    · rw [if_pos ha] at h
      injection h with h
      subst h
      constructor
      · show span.start - (deletion_range.stop - deletion_range.start) ≤
          span.stop - (deletion_range.stop - deletion_range.start)
        omega
      · show span.stop - (deletion_range.stop - deletion_range.start) ≤
          L - (deletion_range.stop - deletion_range.start)
        omega
    · rw [if_neg ha] at h
      cases hoe : EditBehavior.on_edit a with
      | Keep =>
        simp only [hoe] at h
        by_cases hc : span.start < deletion_range.start ∧ span.stop > deletion_range.stop
        · rw [if_pos hc] at h
          by_cases hpos : span.start <
              span.stop - (deletion_range.stop - deletion_range.start)
          · rw [if_pos hpos] at h
            injection h with h
            subst h
            constructor
            · show span.start ≤ span.stop - (deletion_range.stop - deletion_range.start)
              omega
            · show span.stop - (deletion_range.stop - deletion_range.start) ≤
                L - (deletion_range.stop - deletion_range.start)
              omega
          · rw [if_neg hpos] at h
            exact Option.noConfusion h
        · rw [if_neg hc] at h
          by_cases hpos : min span.start deletion_range.start <
              min span.stop deletion_range.start
          · rw [if_pos hpos] at h
            injection h with h
            subst h
            constructor
            · show min span.start deletion_range.start ≤
                min span.stop deletion_range.start
              omega
            · show min span.stop deletion_range.start ≤
                L - (deletion_range.stop - deletion_range.start)
              omega
          · rw [if_neg hpos] at h
            exact Option.noConfusion h
      | Remove =>
        simp only [hoe] at h
        exact Option.noConfusion h

/-- Every state reachable by non-inverted applications and deletions keeps
`start <= end <= text.len()` for every stored span. -/
theorem reachable_wf_invariant {Attr : Type} [EditBehavior Attr]
    {self : attributed_text.AttributedText Attr} (h : attributed_text.ReachableWF self) :
    ∀ e ∈ self.attributes, e.1.start ≤ e.1.stop ∧ e.1.stop ≤ self.text.length := by
  induction h with
  | base text =>
    intro e he
    simp [attributed_text.new] at he
  | applied s s' range a hprev hwf happ ih =>
    obtain ⟨hs, he, rfl⟩ := apply_attribute_ok_inv happ
    intro e hme
    simp only [List.mem_append, List.mem_singleton] at hme
    rcases hme with hme | hme
    · exact ih e hme
    · subst hme
      exact ⟨hwf, he⟩
  | deleted s s' deletion_range hprev hdel ih =>
    obtain ⟨hd1, hd2, htext, hattrs⟩ := delete_ok_inv hdel
    intro e he
    rw [hattrs, List.mem_filterMap] at he
    obtain ⟨x, hx, hrx⟩ := he
    obtain ⟨sp, b⟩ := x
    obtain ⟨hxs, hxl⟩ := ih (sp, b) hx
    have hwfx := rebase_span_wf hd1 hd2 hxs hxl hrx
    have hlen : s'.text.length =
        s.text.length - (deletion_range.stop - deletion_range.start) := by
      rw [htext]
      simp only [List.length_append, List.length_take, List.length_drop]
      omega
    exact ⟨hwfx.1, by omega⟩

/-- C9 counterexample: `apply_attribute` accepts an inverted range whose two
endpoints are in bounds, so a reachable container can hold a span violating
`start <= end`: on text `"Hello World"` (length 11), applying an attribute to
`6..3` succeeds and stores the span `6..3` with `start > end`. -/
theorem C9_counterexample :
    attributed_text.apply_attribute
        (attributed_text.new "Hello World".toList :
          attributed_text.AttributedText TestAttribute) ⟨6, 3⟩ TestAttribute.Keep =
      Except.ok ⟨"Hello World".toList, [(⟨6, 3⟩, TestAttribute.Keep)]⟩
    ∧ ¬ ((⟨6, 3⟩ : Range).start ≤ (⟨6, 3⟩ : Range).stop) :=
  ⟨rfl, by decide⟩

/-- C9 amended: provided every successfully applied range is non-inverted
(`start <= end`), every span stored in a reachable container satisfies
`start <= end <= text.len()`; without that proviso `apply_attribute` itself
can store an inverted span, since it checks the two endpoints against
`text.len()` separately. -/
theorem C9_amended_invariant_for_noninverted {Attr : Type} [EditBehavior Attr]
    {self : attributed_text.AttributedText Attr} (h : attributed_text.ReachableWF self) :
    (self.attributes.all fun e =>
      decide (e.1.start ≤ e.1.stop) && decide (e.1.stop ≤ self.text.length)) = true := by
  rw [List.all_eq_true]
  intro e he
  obtain ⟨h1, h2⟩ := reachable_wf_invariant h e he
  simp [h1, h2]

/-- Witness for C9 amended: the reachable state after one application on
`"Hello"`. -/
theorem C9_amended_invariant_for_noninverted_witness :
    ((⟨"Hello".toList, [(⟨0, 5⟩, TestAttribute.Keep)]⟩ :
        attributed_text.AttributedText TestAttribute).attributes.all fun e =>
      decide (e.1.start ≤ e.1.stop) &&
        decide (e.1.stop ≤
          (⟨"Hello".toList, [(⟨0, 5⟩, TestAttribute.Keep)]⟩ :
            attributed_text.AttributedText TestAttribute).text.length)) = true :=
  C9_amended_invariant_for_noninverted
    (attributed_text.ReachableWF.applied _ _ ⟨0, 5⟩ TestAttribute.Keep
      (attributed_text.ReachableWF.base "Hello".toList) (by decide) rfl)

/-- C10: for `p <= text.len()`, the zero-length deletion `delete p..p`
succeeds, leaves the text content unchanged, and filters the attribute list
to drop exactly the spans whose policy is `Remove` and whose range strictly
contains `p` (`start < p` and `end > p`); every other entry is kept
unchanged. -/
theorem C10_zero_length_delete {Attr : Type} [EditBehavior Attr]
    (self : attributed_text.AttributedText Attr) (p : Nat) (hp : p ≤ self.text.length) :
    attributed_text.delete self ⟨p, p⟩ =
      Except.ok
        { text := self.text
          attributes := self.attributes.filter fun e =>
            !(decide (EditBehavior.on_edit e.2 = SpanEditAction.Remove) &&
              decide (e.1.start < p) && decide (e.1.stop > p)) } := by
  have key : ∀ e ∈ self.attributes,
      attributed_text.rebase_span (⟨p, p⟩ : Range) (p - p) e =
        if (!(decide (EditBehavior.on_edit e.2 = SpanEditAction.Remove) &&
            decide (e.1.start < p) && decide (e.1.stop > p))) then some e else none := by
    intro e _
    obtain ⟨span, a⟩ := e
    by_cases hb : span.stop ≤ p
    · have h1 : ¬ (span.stop > p) := by omega
      simp [attributed_text.rebase_span, hb, h1]
    · by_cases ha : span.start ≥ p
      · have h1 : ¬ (span.start < p) := by omega
        simp [attributed_text.rebase_span, hb, ha, h1, Nat.sub_self, Nat.sub_zero]
      · have h1 : span.start < p := by omega
        have h2 : span.stop > p := by omega
        cases hoe : EditBehavior.on_edit a with
        | Keep =>
          have h3 : span.start < span.stop - (p - p) := by omega
          have hne : ¬ (EditBehavior.on_edit a = SpanEditAction.Remove) := by
            rw [hoe]
            exact fun hk => SpanEditAction.noConfusion hk
          simp [attributed_text.rebase_span, hb, ha, hoe, h1, h2, h3, hne, Nat.sub_self,
            Nat.sub_zero]
          omega
        | Remove =>
          simp [attributed_text.rebase_span, hb, ha, hoe, h1, h2]
  simp only [attributed_text.delete]
  rw [if_neg (by omega)]
  rw [filterMap_eq_filter_of _ _ self.attributes key, List.take_append_drop]

/-- Witness for C10 on text `"Hello World"` at position 5, with a `Remove`
span strictly containing 5, a span before the cut, and a `Keep` span strictly
containing 5. -/
theorem C10_zero_length_delete_witness :
    attributed_text.delete
        (⟨"Hello World".toList,
          [(⟨0, 11⟩, TestAttribute.Remove), (⟨0, 3⟩, TestAttribute.Keep),
            (⟨2, 8⟩, TestAttribute.Keep)]⟩ :
          attributed_text.AttributedText TestAttribute) ⟨5, 5⟩ =
      Except.ok
        { text := "Hello World".toList
          attributes :=
            ([(⟨0, 11⟩, TestAttribute.Remove), (⟨0, 3⟩, TestAttribute.Keep),
              (⟨2, 8⟩, TestAttribute.Keep)] : List (Range × TestAttribute)).filter fun e =>
              !(decide (EditBehavior.on_edit e.2 = SpanEditAction.Remove) &&
                decide (e.1.start < 5) && decide (e.1.stop > 5)) } :=
  C10_zero_length_delete
    ⟨"Hello World".toList,
      [(⟨0, 11⟩, TestAttribute.Remove), (⟨0, 3⟩, TestAttribute.Keep),
        (⟨2, 8⟩, TestAttribute.Keep)]⟩ 5 (by decide)

end StyledTextRepo
